import Mathlib

/-!
# goAdMailGroups: reconciliation of OU descriptions with mail groups

A shallow embedding of `main.go`: the two write phases `recreateExistingGroups`
and `fillGroups`, the helper `getOUnamesFromDN`, and the part of `main` that
runs them one after the other on the three search results.

The LDAP connection is modelled by the sequence of write requests sent on it
(`Proc.log`) and by a `Directory`, which decides, from the requests sent so far
and the request at hand, whether the server answers with an error.  `log.Fatal`
and a runtime panic both end the process; this is recorded in `Proc.halt`, and
no code runs on a halted process.
-/

set_option autoImplicit false

namespace AdMailGroups

/-! ## Data model -/

/-- The fields of `Config` that the write phases read. -/
structure Config where
  UserBaseOU : String
  GroupBaseDN : String
deriving DecidableEq, Repr

/-- The go-ldap type `EntryAttribute`: an attribute name and its values. -/
structure EntryAttribute where
  Name : String
  Values : List String
deriving DecidableEq, Repr

/-- The go-ldap type `Entry`: one search result. -/
structure Entry where
  DN : String
  Attributes : List EntryAttribute
deriving DecidableEq, Repr

/-- The go-ldap method `Entry.GetAttributeValues`: the values of the first
attribute carrying the given name, no values when there is none. -/
def Entry.GetAttributeValues (e : Entry) (attr : String) : List String :=
  match e.Attributes.find? (fun a => a.Name == attr) with
  | some a => a.Values
  | none => []

/-- The go-ldap method `Entry.GetAttributeValue`: the first value of the named
attribute, the empty string when the attribute is absent or has no value. -/
def Entry.GetAttributeValue (e : Entry) (attr : String) : String :=
  match e.GetAttributeValues attr with
  | [] => ""
  | v :: _ => v

/-- The go-ldap type `AttributeTypeAndValue`: one `type=value` pair of a
relative name. -/
structure AttributeTypeAndValue where
  Typ : String
  Value : String
deriving DecidableEq, Repr

/-- The go-ldap type `RelativeDN`: the attribute pairs of one relative name. -/
structure RelativeDN where
  Attributes : List AttributeTypeAndValue
deriving DecidableEq, Repr

/-- The go-ldap type `DN`: a parsed distinguished name. -/
structure DN where
  RDNs : List RelativeDN
deriving DecidableEq, Repr

/-- The go-ldap type `Attribute` of an add request, also used for the
`PartialAttribute` of a modification. -/
structure Attribute where
  Typ : String
  Vals : List String
deriving DecidableEq, Repr

/-- The operation of one change of a modify request. -/
inductive ChangeOp where
  | AddAttribute
  | DeleteAttribute
  | ReplaceAttribute
deriving DecidableEq, Repr

/-- The go-ldap type `Change`: an operation and the attribute it applies to. -/
structure Change where
  Operation : ChangeOp
  Modification : Attribute
deriving DecidableEq, Repr

/-- A write request sent on the connection: `DelRequest`, `AddRequest` or
`ModifyRequest` (all are built with `nil` controls). -/
inductive Request where
  | Del (DN : String)
  | Add (DN : String) (Attributes : List Attribute)
  | Modify (DN : String) (Changes : List Change)
deriving DecidableEq, Repr

/-- Why the process stopped. -/
inductive Halt where
  /-- `log.Fatal` after `l.Del`, `l.Add` or `l.Modify` returned an error. -/
  | requestFailed
  /-- `log.Fatal` after `ldap.ParseDN` returned an error. -/
  | parseFailed
  /-- Runtime panic of `o.Attributes[0]` on a relative name without attributes. -/
  | indexPanic
deriving DecidableEq, Repr

/-- The map `groupComparsion` of `main`, from raw OU name to display name. -/
abbrev GroupComp := String → Option String

/-- The map literal `map[string]string{}`. -/
def GroupComp.empty : GroupComp := fun _ => none

/-- The assignment `groupComp[k] = v`. -/
def GroupComp.set (m : GroupComp) (k v : String) : GroupComp :=
  fun x => if x = k then some v else m x

/-- The directory server as the write phases see it: `dir sent q = true` when
the server answers request `q` with an error, `sent` being the requests it
received before `q` on this connection. -/
abbrev Directory := List Request → Request → Bool

/-- The directory that accepts every request. -/
def Directory.ok : Directory := fun _ _ => false

/-- The state of the process during the write phases. -/
structure Proc where
  /-- The requests sent on the connection, oldest first. -/
  log : List Request
  /-- The content of the one map allocated by `main`. -/
  groupComp : GroupComp
  /-- Set once the process has stopped. -/
  halt : Option Halt

/-- The state in which `main` reaches the write phases: nothing sent, the map
empty. -/
def Proc.init : Proc := ⟨[], GroupComp.empty, none⟩

/-! ## Operations -/

/-- The process state once request `q` has gone out. -/
def Proc.sent (s : Proc) (q : Request) : Proc :=
  { s with log := s.log ++ [q] }

/-- The calls `l.Del`, `l.Add` and `l.Modify`: the request goes out, and the
result tells whether the server returned an error. -/
def Conn.send (dir : Directory) (q : Request) (s : Proc) : Bool × Proc :=
  (dir s.log q, s.sent q)

/-- The call `log.Fatal`: the process exits. -/
def logFatal (h : Halt) (s : Proc) : Proc :=
  { s with halt := some h }

/-- The call `ldap.NewDelRequest(dn, nil)`. -/
def NewDelRequest (dn : String) : Request := Request.Del dn

/-- The request built at lines 164-169: `ldap.NewAddRequest` followed by the
three `Attribute` calls, each of which appends one attribute. -/
def addGroupReq (ouName : String) (cfg : Config) : Request :=
  Request.Add ("CN=" ++ ouName ++ "," ++ cfg.GroupBaseDN)
    ((([] ++ [Attribute.mk "objectClass" ["group", "top"]])
        ++ [Attribute.mk "groupType" ["-2147483646"]])
        ++ [Attribute.mk "sAMAccountName" [ouName]])

/-- The request built at lines 194-198: `ldap.NewModifyRequest` followed by
`Add("member", [userDN])`, which appends one change. -/
def modGroupReq (ouName : String) (userDN : String) (cfg : Config) : Request :=
  Request.Modify ("CN=" ++ ouName ++ "," ++ cfg.GroupBaseDN)
    ([] ++ [Change.mk ChangeOp.AddAttribute (Attribute.mk "member" [userDN])])

/-- The inner loop of `recreateExistingGroups` (lines 150-163) over the listed
groups: a delete request for every group named `ouName`, stopping at the first
delete the server rejects. -/
def deleteGroups (dir : Directory) (ouName : String) : List Entry → Proc → Proc
  | [], s => s
  | group :: rest, s =>
    let groupName := group.GetAttributeValue "name"
    if groupName = ouName then
      let delGroupReq := NewDelRequest group.DN
      match Conn.send dir delGroupReq s with
      | (true, s1) => logFatal Halt.requestFailed s1
      | (false, s1) => deleteGroups dir ouName rest s1
    else
      deleteGroups dir ouName rest s

/-- The outer loop of `recreateExistingGroups` (lines 141-178) over the listed
OUs. -/
def recreateLoop (dir : Directory) (mailGroups : List Entry) (cfg : Config) :
    List Entry → Proc → Proc
  | [], s => s
  | ou :: rest, s =>
    let ouName := ou.GetAttributeValue "name"
    let ouDesc := ou.GetAttributeValue "description"
    if ouDesc ≠ "" then
      let s1 := { s with groupComp := s.groupComp.set ouName ouDesc }
      let ouName := ouDesc
      let s2 := deleteGroups dir ouName mailGroups s1
      match s2.halt with
      | some _ => s2
      | none =>
        match Conn.send dir (addGroupReq ouName cfg) s2 with
        | (true, s3) => logFatal Halt.requestFailed s3
        | (false, s3) => recreateLoop dir mailGroups cfg rest s3
    else
      recreateLoop dir mailGroups cfg rest s

/-- The function `recreateExistingGroups`: `userOUSearchRes` and
`mailGroupSearchRes` are the entries of the two search results, the
connection is the directory together with the process state, and the map
parameter refers to the map held in the process state. -/
def recreateExistingGroups (userOUSearchRes mailGroupSearchRes : List Entry)
    (dir : Directory) (cfg : Config) (s : Proc) : Proc :=
  let mailGroups := mailGroupSearchRes
  recreateLoop dir mailGroups cfg userOUSearchRes s

/-- The loop of `getOUnamesFromDN` (lines 214-221) over the relative names;
`OUnames` is the slice built so far. -/
def collectOUnames (cfg : Config) : List RelativeDN → List String → Except Halt (List String)
  | [], OUnames => Except.ok OUnames
  | o :: rest, OUnames =>
    match o.Attributes with
    | [] => Except.error Halt.indexPanic
    | a0 :: _ =>
      if a0.Typ = "OU" then
        let ou := a0.Value
        if ou ≠ cfg.UserBaseOU then
          collectOUnames cfg rest (OUnames ++ [ou])
        else
          collectOUnames cfg rest OUnames
      else
        collectOUnames cfg rest OUnames

/-- The function `getOUnamesFromDN`; the library function `ldap.ParseDN` is a
parameter, `none` standing for a parse error. -/
def getOUnamesFromDN (ParseDN : String → Option DN) (entry : Entry) (cfg : Config) :
    Except Halt (List String) :=
  match ParseDN entry.DN with
  | none => Except.error Halt.parseFailed
  | some parsedDN => collectOUnames cfg parsedDN.RDNs []

/-- The inner loop of `fillGroups` (lines 189-205) over the OU names of one
user. -/
def addMember (dir : Directory) (cfg : Config) (user : Entry) : List String → Proc → Proc
  | [], s => s
  | ouName :: rest, s =>
    match s.groupComp ouName with
    | some ouName =>
      match Conn.send dir (modGroupReq ouName user.DN cfg) s with
      | (true, s1) => logFatal Halt.requestFailed s1
      | (false, s1) => addMember dir cfg user rest s1
    | none => addMember dir cfg user rest s

/-- The outer loop of `fillGroups` (lines 187-206) over the listed users. -/
def fillLoop (ParseDN : String → Option DN) (dir : Directory) (cfg : Config) :
    List Entry → Proc → Proc
  | [], s => s
  | user :: rest, s =>
    match getOUnamesFromDN ParseDN user cfg with
    | Except.error h => logFatal h s  -- `log.Fatal` or the panic inside the callee
    | Except.ok userOUnames =>
      let s1 := addMember dir cfg user userOUnames s
      match s1.halt with
      | some _ => s1
      | none => fillLoop ParseDN dir cfg rest s1

/-- The function `fillGroups`; the map parameter refers to the map held in the
process state. -/
def fillGroups (ParseDN : String → Option DN) (userSearchRes : List Entry)
    (dir : Directory) (cfg : Config) (s : Proc) : Proc :=
  fillLoop ParseDN dir cfg userSearchRes s

/-- The write phases of `main` (lines 113-120), run on the entries of the three
search results with a fresh map; `fillGroups` is not reached when
`recreateExistingGroups` ended the process. -/
def main (ParseDN : String → Option DN) (userOUSearchResult userSearchResult
    mailGroupSearchResult : List Entry) (dir : Directory) (cfg : Config) : Proc :=
  let s1 := recreateExistingGroups userOUSearchResult mailGroupSearchResult dir cfg Proc.init
  match s1.halt with
  | some _ => s1
  | none => fillGroups ParseDN userSearchResult dir cfg s1

/-! ## The request sequences and the map, as the specification words them -/

/-- The entry's `name` attribute. -/
def nameOf (e : Entry) : String := e.GetAttributeValue "name"

/-- The entry's `description` attribute. -/
def descOf (e : Entry) : String := e.GetAttributeValue "description"

/-- One delete request for the DN of each listed group named `d`, in listing
order. -/
def deletesFor (d : String) (mailGroups : List Entry) : List Request :=
  (mailGroups.filter (fun g => decide (nameOf g = d))).map (fun g => Request.Del g.DN)

/-- The requests of the reconciliation pass of one OU: nothing when the
description is empty, otherwise the deletes of the listed groups named like the
description, then the add request. -/
def passRequests (mailGroups : List Entry) (cfg : Config) (ou : Entry) : List Request :=
  if descOf ou = "" then [] else deletesFor (descOf ou) mailGroups ++ [addGroupReq (descOf ou) cfg]

/-- The requests of the passes of all listed OUs, in listing order. -/
def recreateRequests (mailGroups : List Entry) (cfg : Config) (ous : List Entry) :
    List Request :=
  ous.flatMap (passRequests mailGroups cfg)

/-- The map after the listed OUs have been gone through, starting from `m`:
every OU with a non-empty description writes its entry, in listing order. -/
def buildMap (ous : List Entry) (m : GroupComp) : GroupComp :=
  ous.foldl (fun m ou => if descOf ou = "" then m else m.set (nameOf ou) (descOf ou)) m

/-- The value of the first attribute of a relative name when that attribute
has type `OU` and its value is not the base OU. -/
def ouOfRDN (cfg : Config) (o : RelativeDN) : Option String :=
  match o.Attributes.head? with
  | some a0 => if a0.Typ = "OU" ∧ a0.Value ≠ cfg.UserBaseOU then some a0.Value else none
  | none => none

/-- The modify requests for one user whose OU names are `ouNames`: one per OU
name that is a key of the map, in order. -/
def memberRequests (m : GroupComp) (cfg : Config) (user : Entry) (ouNames : List String) :
    List Request :=
  ouNames.filterMap (fun ou => (m ou).map (fun d => modGroupReq d user.DN cfg))

/-- Every request of the sequence was accepted by the directory when it was
sent. -/
def AllAccepted (dir : Directory) (l : List Request) : Prop :=
  ∀ pre q, pre ++ [q] <+: l → dir pre q = false

/-- The description of the last listed OU that is named `k` and has a
non-empty description, when there is one. -/
def lastDesc (ous : List Entry) (k : String) : Option String :=
  ((ous.filter (fun ou => decide (nameOf ou = k ∧ descOf ou ≠ ""))).getLast?).map descOf

/-- Whether a request is an add request. -/
def Request.isAdd : Request → Bool
  | Request.Add _ _ => true
  | _ => false

/-- Whether a request is a delete request. -/
def Request.isDel : Request → Bool
  | Request.Del _ => true
  | _ => false

/-- The string `ou` is an OU component of the parsed DN: some relative name
has a first attribute of type `OU` with value `ou`. -/
def IsOUComponent (dn : DN) (ou : String) : Prop :=
  ∃ o ∈ dn.RDNs, ∃ a0, o.Attributes.head? = some a0 ∧ a0.Typ = "OU" ∧ a0.Value = ou

/-- How the state `a` reached on directory `dir` relates to the state `b` the
same code reaches on the directory that accepts everything: either no request
was rejected and the two states are the same, or the process stopped on a
rejected request, which is the last one it sent, and what it sent starts the
sequence of `b`. -/
def Tracks (dir : Directory) (a b : Proc) : Prop :=
  (a = b ∧ a.halt ≠ some Halt.requestFailed ∧ AllAccepted dir a.log) ∨
  (a.halt = some Halt.requestFailed ∧ a.log <+: b.log ∧
    ∃ pre q, a.log = pre ++ [q] ∧ AllAccepted dir pre ∧ dir pre q = true)

/-- A sample configuration. -/
def cfg0 : Config := ⟨"Employees", "OU=Groups,DC=example,DC=com"⟩

/-- An OU entry with the given DN, name and description. -/
def mkOU (dn name desc : String) : Entry :=
  ⟨dn, [⟨"name", [name]⟩, ⟨"description", [desc]⟩]⟩

/-- An OU entry without a description attribute. -/
def mkBareOU (dn name : String) : Entry :=
  ⟨dn, [⟨"name", [name]⟩]⟩

/-- A group entry with the given DN and name. -/
def mkGroup (dn name : String) : Entry :=
  ⟨dn, [⟨"name", [name]⟩]⟩

/-- Two OUs named `Sales` in different parts of the tree, each described. -/
def twoSalesOUs : List Entry :=
  [mkOU "OU=Sales,OU=East,OU=Employees,DC=example,DC=com" "Sales" "Sales East",
   mkOU "OU=Sales,OU=West,OU=Employees,DC=example,DC=com" "Sales" "Sales West"]

/-- Two OUs named `Sales`, the first described, the second without a
description. -/
def salesThenBareSales : List Entry :=
  [mkOU "OU=Sales,OU=East,OU=Employees,DC=example,DC=com" "Sales" "Sales Team",
   mkBareOU "OU=Sales,OU=West,OU=Employees,DC=example,DC=com" "Sales"]

/-- Two OUs of different names carrying the same description. -/
def twoOUsOneDesc : List Entry :=
  [mkOU "OU=Sales,OU=Employees,DC=example,DC=com" "Sales" "Sales Team",
   mkOU "OU=Presales,OU=Employees,DC=example,DC=com" "Presales" "Sales Team"]

/-- A group named `Sales Team` that exists before the run, outside the place
where the run creates its groups. -/
def oldSalesTeam : Entry :=
  mkGroup "CN=Sales Team,OU=Legacy,OU=Groups,DC=example,DC=com" "Sales Team"

/-- A group of another name that exists before the run. -/
def oldStaff : Entry :=
  mkGroup "CN=Staff,OU=Groups,DC=example,DC=com" "Staff"

/-- The `Sales` OU of the scenarios, described as `Sales Team`. -/
def ouSales : Entry :=
  mkOU "OU=Sales,OU=Employees,DC=example,DC=com" "Sales" "Sales Team"

/-- The user entry of the scenario. -/
def userJane : Entry := ⟨"CN=Jane,OU=Sales,OU=Employees,DC=example,DC=com", []⟩

/-- A user entry whose first relative name has two attribute pairs. -/
def userJoe : Entry := ⟨"CN=Joe+OU=Lab,OU=Sales,OU=Employees,DC=example,DC=com", []⟩

/-- A stand-in for `ldap.ParseDN` that knows the DNs of the sample users and
reports an error on every other string. -/
def sampleParseDN (dn : String) : Option DN :=
  if dn = "CN=Jane,OU=Sales,OU=Employees,DC=example,DC=com" then
    some ⟨[⟨[⟨"CN", "Jane"⟩]⟩, ⟨[⟨"OU", "Sales"⟩]⟩, ⟨[⟨"OU", "Employees"⟩]⟩,
      ⟨[⟨"DC", "example"⟩]⟩, ⟨[⟨"DC", "com"⟩]⟩]⟩
  else if dn = "CN=Joe+OU=Lab,OU=Sales,OU=Employees,DC=example,DC=com" then
    some ⟨[⟨[⟨"CN", "Joe"⟩, ⟨"OU", "Lab"⟩]⟩, ⟨[⟨"OU", "Sales"⟩]⟩, ⟨[⟨"OU", "Employees"⟩]⟩,
      ⟨[⟨"DC", "example"⟩]⟩, ⟨[⟨"DC", "com"⟩]⟩]⟩
  else if dn = "CN=Root,DC=example,DC=com" then
    some ⟨[⟨[⟨"CN", "Root"⟩]⟩, ⟨[⟨"DC", "example"⟩]⟩, ⟨[⟨"DC", "com"⟩]⟩]⟩
  else none

/-- A directory that rejects the second request it receives and accepts every
other one. -/
def rejectSecond : Directory := fun sent _ => decide (sent.length = 1)

/-! ## Basic facts on the loops -/

theorem deleteGroups_nil (dir : Directory) (d : String) (s : Proc) :
    deleteGroups dir d [] s = s := rfl

theorem deleteGroups_skip (dir : Directory) (d : String) (g : Entry) (rest : List Entry)
    (s : Proc) (h : nameOf g ≠ d) :
    deleteGroups dir d (g :: rest) s = deleteGroups dir d rest s := by
  have h1 : ¬ g.GetAttributeValue "name" = d := h
  simp only [deleteGroups]
  rw [if_neg h1]

theorem deleteGroups_fail (dir : Directory) (d : String) (g : Entry) (rest : List Entry)
    (s : Proc) (h : nameOf g = d) (hd : dir s.log (Request.Del g.DN) = true) :
    deleteGroups dir d (g :: rest) s = logFatal Halt.requestFailed (s.sent (Request.Del g.DN)) := by
  have h1 : g.GetAttributeValue "name" = d := h
  simp only [deleteGroups]
  rw [if_pos h1]
  simp only [Conn.send, NewDelRequest, hd]

theorem deleteGroups_pass (dir : Directory) (d : String) (g : Entry) (rest : List Entry)
    (s : Proc) (h : nameOf g = d) (hd : dir s.log (Request.Del g.DN) = false) :
    deleteGroups dir d (g :: rest) s = deleteGroups dir d rest (s.sent (Request.Del g.DN)) := by
  have h1 : g.GetAttributeValue "name" = d := h
  simp only [deleteGroups]
  rw [if_pos h1]
  simp only [Conn.send, NewDelRequest, hd]

theorem recreateLoop_nil (dir : Directory) (gs : List Entry) (cfg : Config) (s : Proc) :
    recreateLoop dir gs cfg [] s = s := rfl

theorem recreateLoop_skip (dir : Directory) (gs : List Entry) (cfg : Config) (ou : Entry)
    (rest : List Entry) (s : Proc) (h : descOf ou = "") :
    recreateLoop dir gs cfg (ou :: rest) s = recreateLoop dir gs cfg rest s := by
  have h1 : ¬ ou.GetAttributeValue "description" ≠ "" := not_not.mpr h
  simp only [recreateLoop]
  rw [if_neg h1]

theorem recreateLoop_delFail (dir : Directory) (gs : List Entry) (cfg : Config) (ou : Entry)
    (rest : List Entry) (s : Proc) (h : descOf ou ≠ "") (e : Halt)
    (hh : (deleteGroups dir (descOf ou) gs
      { s with groupComp := s.groupComp.set (nameOf ou) (descOf ou) }).halt = some e) :
    recreateLoop dir gs cfg (ou :: rest) s =
      deleteGroups dir (descOf ou) gs
        { s with groupComp := s.groupComp.set (nameOf ou) (descOf ou) } := by
  have h1 : ou.GetAttributeValue "description" ≠ "" := h
  simp only [recreateLoop]
  rw [if_pos h1]
  simp only [descOf, nameOf] at hh
  simp only [hh, descOf, nameOf]

theorem recreateLoop_addFail (dir : Directory) (gs : List Entry) (cfg : Config) (ou : Entry)
    (rest : List Entry) (s : Proc) (h : descOf ou ≠ "")
    (hh : (deleteGroups dir (descOf ou) gs
      { s with groupComp := s.groupComp.set (nameOf ou) (descOf ou) }).halt = none)
    (hd : dir (deleteGroups dir (descOf ou) gs
      { s with groupComp := s.groupComp.set (nameOf ou) (descOf ou) }).log
      (addGroupReq (descOf ou) cfg) = true) :
    recreateLoop dir gs cfg (ou :: rest) s =
      logFatal Halt.requestFailed ((deleteGroups dir (descOf ou) gs
        { s with groupComp := s.groupComp.set (nameOf ou) (descOf ou) }).sent
          (addGroupReq (descOf ou) cfg)) := by
  have h1 : ou.GetAttributeValue "description" ≠ "" := h
  simp only [recreateLoop]
  rw [if_pos h1]
  simp only [descOf, nameOf] at hh hd
  simp only [hh, hd, Conn.send, descOf, nameOf]

theorem recreateLoop_pass (dir : Directory) (gs : List Entry) (cfg : Config) (ou : Entry)
    (rest : List Entry) (s : Proc) (h : descOf ou ≠ "")
    (hh : (deleteGroups dir (descOf ou) gs
      { s with groupComp := s.groupComp.set (nameOf ou) (descOf ou) }).halt = none)
    (hd : dir (deleteGroups dir (descOf ou) gs
      { s with groupComp := s.groupComp.set (nameOf ou) (descOf ou) }).log
      (addGroupReq (descOf ou) cfg) = false) :
    recreateLoop dir gs cfg (ou :: rest) s =
      recreateLoop dir gs cfg rest ((deleteGroups dir (descOf ou) gs
        { s with groupComp := s.groupComp.set (nameOf ou) (descOf ou) }).sent
          (addGroupReq (descOf ou) cfg)) := by
  have h1 : ou.GetAttributeValue "description" ≠ "" := h
  simp only [recreateLoop]
  rw [if_pos h1]
  simp only [descOf, nameOf] at hh hd
  simp only [hh, hd, Conn.send, descOf, nameOf]

theorem addMember_nil (dir : Directory) (cfg : Config) (user : Entry) (s : Proc) :
    addMember dir cfg user [] s = s := rfl

theorem addMember_skip (dir : Directory) (cfg : Config) (user : Entry) (ou : String)
    (rest : List String) (s : Proc) (h : s.groupComp ou = none) :
    addMember dir cfg user (ou :: rest) s = addMember dir cfg user rest s := by
  simp only [addMember, h]

theorem addMember_fail (dir : Directory) (cfg : Config) (user : Entry) (ou d : String)
    (rest : List String) (s : Proc) (h : s.groupComp ou = some d)
    (hd : dir s.log (modGroupReq d user.DN cfg) = true) :
    addMember dir cfg user (ou :: rest) s =
      logFatal Halt.requestFailed (s.sent (modGroupReq d user.DN cfg)) := by
  simp only [addMember, h, Conn.send, hd]

theorem addMember_pass (dir : Directory) (cfg : Config) (user : Entry) (ou d : String)
    (rest : List String) (s : Proc) (h : s.groupComp ou = some d)
    (hd : dir s.log (modGroupReq d user.DN cfg) = false) :
    addMember dir cfg user (ou :: rest) s =
      addMember dir cfg user rest (s.sent (modGroupReq d user.DN cfg)) := by
  simp only [addMember, h, Conn.send, hd]

theorem fillLoop_nil (P : String → Option DN) (dir : Directory) (cfg : Config) (s : Proc) :
    fillLoop P dir cfg [] s = s := rfl

theorem fillLoop_error (P : String → Option DN) (dir : Directory) (cfg : Config)
    (user : Entry) (rest : List Entry) (s : Proc) (e : Halt)
    (h : getOUnamesFromDN P user cfg = Except.error e) :
    fillLoop P dir cfg (user :: rest) s = logFatal e s := by
  simp only [fillLoop, h]

theorem fillLoop_halt (P : String → Option DN) (dir : Directory) (cfg : Config)
    (user : Entry) (rest : List Entry) (s : Proc) (l : List String) (e : Halt)
    (h : getOUnamesFromDN P user cfg = Except.ok l)
    (hh : (addMember dir cfg user l s).halt = some e) :
    fillLoop P dir cfg (user :: rest) s = addMember dir cfg user l s := by
  simp only [fillLoop, h, hh]

theorem fillLoop_pass (P : String → Option DN) (dir : Directory) (cfg : Config)
    (user : Entry) (rest : List Entry) (s : Proc) (l : List String)
    (h : getOUnamesFromDN P user cfg = Except.ok l)
    (hh : (addMember dir cfg user l s).halt = none) :
    fillLoop P dir cfg (user :: rest) s = fillLoop P dir cfg rest (addMember dir cfg user l s) := by
  simp only [fillLoop, h, hh]

/-! ## The log only grows -/

theorem sent_log_mono (s : Proc) (q : Request) : s.log <+: (s.sent q).log :=
  List.prefix_append _ _

theorem deleteGroups_log_mono (dir : Directory) (d : String) (gs : List Entry) (s : Proc) :
    s.log <+: (deleteGroups dir d gs s).log := by
  induction gs generalizing s with
  | nil => exact List.prefix_rfl
  | cons g rest ih =>
    by_cases h : nameOf g = d
    · cases hd : dir s.log (Request.Del g.DN) with
      | true =>
        rw [deleteGroups_fail dir d g rest s h hd]
        exact List.prefix_append _ _
      | false =>
        rw [deleteGroups_pass dir d g rest s h hd]
        exact (sent_log_mono _ _).trans (ih _)
    · rw [deleteGroups_skip dir d g rest s h]
      exact ih s

theorem recreateLoop_log_mono (dir : Directory) (gs : List Entry) (cfg : Config)
    (ous : List Entry) (s : Proc) :
    s.log <+: (recreateLoop dir gs cfg ous s).log := by
  induction ous generalizing s with
  | nil => exact List.prefix_rfl
  | cons ou rest ih =>
    by_cases h : descOf ou = ""
    · rw [recreateLoop_skip dir gs cfg ou rest s h]
      exact ih s
    · have hm := deleteGroups_log_mono dir (descOf ou) gs
        { s with groupComp := s.groupComp.set (nameOf ou) (descOf ou) }
      cases hh : (deleteGroups dir (descOf ou) gs
          { s with groupComp := s.groupComp.set (nameOf ou) (descOf ou) }).halt with
      | some e =>
        rw [recreateLoop_delFail dir gs cfg ou rest s h e hh]
        exact hm
      | none =>
        cases hd : dir (deleteGroups dir (descOf ou) gs
            { s with groupComp := s.groupComp.set (nameOf ou) (descOf ou) }).log
            (addGroupReq (descOf ou) cfg) with
        | true =>
          rw [recreateLoop_addFail dir gs cfg ou rest s h hh hd]
          exact hm.trans (List.prefix_append _ _)
        | false =>
          rw [recreateLoop_pass dir gs cfg ou rest s h hh hd]
          exact hm.trans ((sent_log_mono _ _).trans (ih _))

theorem addMember_log_mono (dir : Directory) (cfg : Config) (user : Entry)
    (l : List String) (s : Proc) :
    s.log <+: (addMember dir cfg user l s).log := by
  induction l generalizing s with
  | nil => exact List.prefix_rfl
  | cons ou rest ih =>
    cases hm : s.groupComp ou with
    | none =>
      rw [addMember_skip dir cfg user ou rest s hm]
      exact ih s
    | some d =>
      cases hd : dir s.log (modGroupReq d user.DN cfg) with
      | true =>
        rw [addMember_fail dir cfg user ou d rest s hm hd]
        exact List.prefix_append _ _
      | false =>
        rw [addMember_pass dir cfg user ou d rest s hm hd]
        exact (sent_log_mono _ _).trans (ih _)

theorem fillLoop_log_mono (P : String → Option DN) (dir : Directory) (cfg : Config)
    (users : List Entry) (s : Proc) :
    s.log <+: (fillLoop P dir cfg users s).log := by
  induction users generalizing s with
  | nil => exact List.prefix_rfl
  | cons user rest ih =>
    cases hg : getOUnamesFromDN P user cfg with
    | error e =>
      rw [fillLoop_error P dir cfg user rest s e hg]
      exact List.prefix_rfl
    | ok l =>
      have hm := addMember_log_mono dir cfg user l s
      cases hh : (addMember dir cfg user l s).halt with
      | some e =>
        rw [fillLoop_halt P dir cfg user rest s l e hg hh]
        exact hm
      | none =>
        rw [fillLoop_pass P dir cfg user rest s l hg hh]
        exact hm.trans (ih _)

/-! ## Accepted request sequences -/

theorem allAccepted_nil (dir : Directory) : AllAccepted dir [] := by
  intro pre q h
  have := List.eq_nil_of_prefix_nil h
  simp at this

theorem allAccepted_concat (dir : Directory) (l : List Request) (q : Request)
    (h : AllAccepted dir l) (hd : dir l q = false) : AllAccepted dir (l ++ [q]) := by
  intro pre q1 hp
  rcases List.prefix_concat_iff.mp hp with heq | hpre
  · have h1 : pre = l ∧ q1 = q := by
      have := List.append_inj' heq rfl
      exact ⟨this.1, by simpa using this.2⟩
    rw [h1.1, h1.2]
    exact hd
  · exact h pre q1 hpre

theorem allAccepted_ok (l : List Request) : AllAccepted Directory.ok l := by
  intro pre q _
  rfl

/-! ## Runs on the directory that accepts everything -/

theorem deleteGroups_ok (d : String) (gs : List Entry) (s : Proc) :
    deleteGroups Directory.ok d gs s = { s with log := s.log ++ deletesFor d gs } := by
  induction gs generalizing s with
  | nil => simp [deleteGroups, deletesFor]
  | cons g rest ih =>
    by_cases h : nameOf g = d
    · rw [deleteGroups_pass Directory.ok d g rest s h rfl, ih]
      simp [deletesFor, Proc.sent, h]
    · rw [deleteGroups_skip Directory.ok d g rest s h, ih]
      simp [deletesFor, h]

theorem deleteGroups_ok_halt (d : String) (gs : List Entry) (s : Proc) :
    (deleteGroups Directory.ok d gs s).halt = s.halt := by
  rw [deleteGroups_ok]

theorem recreateLoop_ok (gs : List Entry) (cfg : Config) (ous : List Entry) (s : Proc)
    (hs : s.halt = none) :
    recreateLoop Directory.ok gs cfg ous s =
      ⟨s.log ++ recreateRequests gs cfg ous, buildMap ous s.groupComp, none⟩ := by
  induction ous generalizing s with
  | nil =>
    cases s
    simp_all [recreateLoop, recreateRequests, buildMap]
  | cons ou rest ih =>
    by_cases h : descOf ou = ""
    · rw [recreateLoop_skip Directory.ok gs cfg ou rest s h, ih s hs]
      simp [recreateRequests, passRequests, buildMap, h]
    · have hh : (deleteGroups Directory.ok (descOf ou) gs
          { s with groupComp := s.groupComp.set (nameOf ou) (descOf ou) }).halt = none := by
        rw [deleteGroups_ok_halt]
        exact hs
      have hh2 : ((deleteGroups Directory.ok (descOf ou) gs
          { s with groupComp := s.groupComp.set (nameOf ou) (descOf ou) }).sent
            (addGroupReq (descOf ou) cfg)).halt = none := hh
      rw [recreateLoop_pass Directory.ok gs cfg ou rest s h hh rfl, ih _ hh2, deleteGroups_ok]
      simp [recreateRequests, passRequests, buildMap, h, Proc.sent]

theorem addMember_ok (cfg : Config) (user : Entry) (l : List String) (s : Proc) :
    addMember Directory.ok cfg user l s =
      { s with log := s.log ++ memberRequests s.groupComp cfg user l } := by
  induction l generalizing s with
  | nil => simp [addMember, memberRequests]
  | cons ou rest ih =>
    cases hm : s.groupComp ou with
    | none =>
      rw [addMember_skip Directory.ok cfg user ou rest s hm, ih]
      simp [memberRequests, hm]
    | some d =>
      rw [addMember_pass Directory.ok cfg user ou d rest s hm rfl, ih]
      simp [memberRequests, hm, Proc.sent]

theorem addMember_ok_halt (cfg : Config) (user : Entry) (l : List String) (s : Proc) :
    (addMember Directory.ok cfg user l s).halt = s.halt := by
  rw [addMember_ok]

/-! ## A run against any directory tracks the run in which nothing fails -/

theorem tracks_same (dir : Directory) (s : Proc) (hs : s.halt ≠ some Halt.requestFailed)
    (ha : AllAccepted dir s.log) : Tracks dir s s :=
  Or.inl ⟨rfl, hs, ha⟩

theorem tracks_rejected (dir : Directory) (s b : Proc) (q : Request)
    (ha : AllAccepted dir s.log) (hd : dir s.log q = true) (hb : (s.sent q).log <+: b.log) :
    Tracks dir (logFatal Halt.requestFailed (s.sent q)) b :=
  Or.inr ⟨rfl, hb, s.log, q, rfl, ha, hd⟩

theorem tracks_extend (dir : Directory) (a b c : Proc)
    (ha : a.halt = some Halt.requestFailed) (h : Tracks dir a b) (hbc : b.log <+: c.log) :
    Tracks dir a c := by
  rcases h with ⟨hab, hne, _⟩ | ⟨_, hp, hex⟩
  · exact absurd ha hne
  · exact Or.inr ⟨ha, hp.trans hbc, hex⟩

theorem deleteGroups_tracks (dir : Directory) (d : String) (gs : List Entry) (s : Proc)
    (hs : s.halt = none) (ha : AllAccepted dir s.log) :
    Tracks dir (deleteGroups dir d gs s) (deleteGroups Directory.ok d gs s) := by
  induction gs generalizing s with
  | nil =>
    refine tracks_same dir s ?_ ha
    rw [hs]
    simp
  | cons g rest ih =>
    by_cases h : nameOf g = d
    · rw [deleteGroups_pass Directory.ok d g rest s h rfl]
      cases hd : dir s.log (Request.Del g.DN) with
      | true =>
        rw [deleteGroups_fail dir d g rest s h hd]
        exact tracks_rejected dir s _ _ ha hd (deleteGroups_log_mono _ _ _ _)
      | false =>
        rw [deleteGroups_pass dir d g rest s h hd]
        exact ih _ hs (allAccepted_concat dir s.log _ ha hd)
    · rw [deleteGroups_skip dir d g rest s h, deleteGroups_skip Directory.ok d g rest s h]
      exact ih s hs ha

theorem recreateLoop_tracks (dir : Directory) (gs : List Entry) (cfg : Config)
    (ous : List Entry) (s : Proc) (hs : s.halt = none) (ha : AllAccepted dir s.log) :
    Tracks dir (recreateLoop dir gs cfg ous s) (recreateLoop Directory.ok gs cfg ous s) := by
  induction ous generalizing s with
  | nil =>
    refine tracks_same dir s ?_ ha
    rw [hs]
    simp
  | cons ou rest ih =>
    by_cases h : descOf ou = ""
    · rw [recreateLoop_skip dir gs cfg ou rest s h,
        recreateLoop_skip Directory.ok gs cfg ou rest s h]
      exact ih s hs ha
    · have hb : (deleteGroups Directory.ok (descOf ou) gs
          { s with groupComp := s.groupComp.set (nameOf ou) (descOf ou) }).halt = none := by
        rw [deleteGroups_ok_halt]
        exact hs
      have ht := deleteGroups_tracks dir (descOf ou) gs
        { s with groupComp := s.groupComp.set (nameOf ou) (descOf ou) } hs ha
      rw [recreateLoop_pass Directory.ok gs cfg ou rest s h hb rfl]
      rcases ht with ⟨hab, _, hacc⟩ | ⟨hfail, hp, hex⟩
      · have hh : (deleteGroups dir (descOf ou) gs
            { s with groupComp := s.groupComp.set (nameOf ou) (descOf ou) }).halt = none := by
          rw [hab]
          exact hb
        cases hd : dir (deleteGroups dir (descOf ou) gs
            { s with groupComp := s.groupComp.set (nameOf ou) (descOf ou) }).log
            (addGroupReq (descOf ou) cfg) with
        | true =>
          rw [recreateLoop_addFail dir gs cfg ou rest s h hh hd]
          refine tracks_rejected dir _ _ _ hacc hd ?_
          rw [hab]
          exact recreateLoop_log_mono _ _ _ _ _
        | false =>
          rw [recreateLoop_pass dir gs cfg ou rest s h hh hd]
          have hh2 : ((deleteGroups dir (descOf ou) gs
              { s with groupComp := s.groupComp.set (nameOf ou) (descOf ou) }).sent
                (addGroupReq (descOf ou) cfg)).halt = none := hh
          have := ih _ hh2 (allAccepted_concat dir _ _ hacc hd)
          rw [hab] at this ⊢
          exact this
      · rw [recreateLoop_delFail dir gs cfg ou rest s h _ hfail]
        exact tracks_extend dir _ _ _ hfail (Or.inr ⟨hfail, hp, hex⟩)
          ((sent_log_mono _ _).trans (recreateLoop_log_mono _ _ _ _ _))

theorem collectOUnames_error (cfg : Config) (rdns : List RelativeDN) (acc : List String)
    (e : Halt) (h : collectOUnames cfg rdns acc = Except.error e) : e = Halt.indexPanic := by
  induction rdns generalizing acc with
  | nil => simp [collectOUnames] at h
  | cons o rest ih =>
    cases ho : o.Attributes with
    | nil =>
      simp only [collectOUnames, ho] at h
      exact (Except.error.inj h).symm
    | cons a0 more =>
      simp only [collectOUnames, ho] at h
      split at h
      · split at h
        · exact ih _ h
        · exact ih _ h
      · exact ih _ h

theorem getOUnamesFromDN_error (P : String → Option DN) (user : Entry) (cfg : Config)
    (e : Halt) (h : getOUnamesFromDN P user cfg = Except.error e) :
    e ≠ Halt.requestFailed := by
  unfold getOUnamesFromDN at h
  cases hp : P user.DN with
  | none =>
    rw [hp] at h
    have := Except.error.inj h
    rw [← this]
    simp
  | some dn =>
    rw [hp] at h
    rw [collectOUnames_error cfg dn.RDNs [] e h]
    simp

theorem addMember_tracks (dir : Directory) (cfg : Config) (user : Entry) (l : List String)
    (s : Proc) (hs : s.halt = none) (ha : AllAccepted dir s.log) :
    Tracks dir (addMember dir cfg user l s) (addMember Directory.ok cfg user l s) := by
  induction l generalizing s with
  | nil =>
    refine tracks_same dir s ?_ ha
    rw [hs]
    simp
  | cons ou rest ih =>
    cases hm : s.groupComp ou with
    | none =>
      rw [addMember_skip dir cfg user ou rest s hm,
        addMember_skip Directory.ok cfg user ou rest s hm]
      exact ih s hs ha
    | some d =>
      rw [addMember_pass Directory.ok cfg user ou d rest s hm rfl]
      cases hd : dir s.log (modGroupReq d user.DN cfg) with
      | true =>
        rw [addMember_fail dir cfg user ou d rest s hm hd]
        exact tracks_rejected dir s _ _ ha hd (addMember_log_mono _ _ _ _ _)
      | false =>
        rw [addMember_pass dir cfg user ou d rest s hm hd]
        exact ih _ hs (allAccepted_concat dir s.log _ ha hd)

theorem fillLoop_tracks (P : String → Option DN) (dir : Directory) (cfg : Config)
    (users : List Entry) (s : Proc) (hs : s.halt = none) (ha : AllAccepted dir s.log) :
    Tracks dir (fillLoop P dir cfg users s) (fillLoop P Directory.ok cfg users s) := by
  induction users generalizing s with
  | nil =>
    refine tracks_same dir s ?_ ha
    rw [hs]
    simp
  | cons user rest ih =>
    cases hg : getOUnamesFromDN P user cfg with
    | error e =>
      rw [fillLoop_error P dir cfg user rest s e hg,
        fillLoop_error P Directory.ok cfg user rest s e hg]
      refine tracks_same dir _ ?_ ha
      intro hc
      exact getOUnamesFromDN_error P user cfg e hg (Option.some.inj hc)
    | ok l =>
      have hb : (addMember Directory.ok cfg user l s).halt = none := by
        rw [addMember_ok_halt]
        exact hs
      rw [fillLoop_pass P Directory.ok cfg user rest s l hg hb]
      rcases addMember_tracks dir cfg user l s hs ha with ⟨hab, _, hacc⟩ | ⟨hfail, hp, hex⟩
      · have hh : (addMember dir cfg user l s).halt = none := by
          rw [hab]
          exact hb
        rw [fillLoop_pass P dir cfg user rest s l hg hh]
        have := ih _ hh hacc
        rw [hab] at this ⊢
        exact this
      · rw [fillLoop_halt P dir cfg user rest s l _ hg hfail]
        exact tracks_extend dir _ _ _ hfail (Or.inr ⟨hfail, hp, hex⟩)
          (fillLoop_log_mono _ _ _ _ _)

theorem recreateExistingGroups_ok (ous gs : List Entry) (cfg : Config) (s : Proc)
    (hs : s.halt = none) :
    recreateExistingGroups ous gs Directory.ok cfg s =
      ⟨s.log ++ recreateRequests gs cfg ous, buildMap ous s.groupComp, none⟩ :=
  recreateLoop_ok gs cfg ous s hs

theorem main_tracks (P : String → Option DN) (ous users gs : List Entry) (dir : Directory)
    (cfg : Config) :
    Tracks dir (main P ous users gs dir cfg) (main P ous users gs Directory.ok cfg) := by
  have hb := recreateExistingGroups_ok ous gs cfg Proc.init rfl
  have hbh : (recreateExistingGroups ous gs Directory.ok cfg Proc.init).halt = none := by
    rw [hb]
  have hmain : main P ous users gs Directory.ok cfg =
      fillGroups P users Directory.ok cfg
        (recreateExistingGroups ous gs Directory.ok cfg Proc.init) := by
    simp only [main, hbh]
  rw [hmain]
  rcases recreateLoop_tracks dir gs cfg ous Proc.init rfl (allAccepted_nil dir) with
    ⟨hab, _, hacc⟩ | ⟨hfail, hp, hex⟩
  · have hh : (recreateExistingGroups ous gs dir cfg Proc.init).halt = none := by
      unfold recreateExistingGroups
      rw [hab]
      exact hbh
    have hm : main P ous users gs dir cfg =
        fillGroups P users dir cfg (recreateExistingGroups ous gs dir cfg Proc.init) := by
      simp only [main, hh]
    rw [hm]
    unfold recreateExistingGroups fillGroups at *
    have := fillLoop_tracks P dir cfg users _ hh hacc
    rw [hab] at this ⊢
    exact this
  · have hm : main P ous users gs dir cfg = recreateExistingGroups ous gs dir cfg Proc.init := by
      have hf : (recreateExistingGroups ous gs dir cfg Proc.init).halt =
          some Halt.requestFailed := hfail
      simp only [main, hf]
    rw [hm]
    exact tracks_extend dir _ _ _ hfail (Or.inr ⟨hfail, hp, hex⟩)
      (fillLoop_log_mono _ _ _ _ _)

/-! ## The map built by `recreateExistingGroups` -/

theorem recreate_of_halt_none (ous gs : List Entry) (dir : Directory) (cfg : Config)
    (h : (recreateExistingGroups ous gs dir cfg Proc.init).halt = none) :
    recreateExistingGroups ous gs dir cfg Proc.init =
      ⟨recreateRequests gs cfg ous, buildMap ous GroupComp.empty, none⟩ := by
  have hok := recreateExistingGroups_ok ous gs cfg Proc.init rfl
  rcases recreateLoop_tracks dir gs cfg ous Proc.init rfl (allAccepted_nil dir) with
    ⟨hab, _, _⟩ | ⟨hfail, _, _⟩
  · unfold recreateExistingGroups at hok ⊢
    rw [hab, hok]
    simp [Proc.init]
  · unfold recreateExistingGroups at h
    rw [h] at hfail
    simp at hfail

theorem lastDesc_cons (ou : Entry) (rest : List Entry) (k : String) :
    lastDesc (ou :: rest) k =
      (lastDesc rest k).or (if nameOf ou = k ∧ descOf ou ≠ "" then some (descOf ou) else none) := by
  unfold lastDesc
  by_cases h : nameOf ou = k ∧ descOf ou ≠ ""
  · rw [List.filter_cons_of_pos (by simpa using h), List.getLast?_cons, if_pos h]
    cases (List.filter (fun ou => decide (nameOf ou = k ∧ descOf ou ≠ "")) rest).getLast? <;> simp
  · rw [List.filter_cons_of_neg (by simpa using h), if_neg h]
    simp

theorem buildMap_cons (ou : Entry) (rest : List Entry) (m : GroupComp) :
    buildMap (ou :: rest) m =
      buildMap rest (if descOf ou = "" then m else m.set (nameOf ou) (descOf ou)) := rfl

theorem buildMap_apply (ous : List Entry) (m : GroupComp) (k : String) :
    buildMap ous m k = (lastDesc ous k).or (m k) := by
  induction ous generalizing m with
  | nil => simp [buildMap, lastDesc]
  | cons ou rest ih =>
    rw [buildMap_cons, ih, lastDesc_cons]
    by_cases hd : descOf ou = ""
    · simp [hd]
    · by_cases hn : nameOf ou = k
      · cases lastDesc rest k <;> simp [hd, hn, GroupComp.set]
      · have hn2 : ¬ k = nameOf ou := fun h => hn h.symm
        cases lastDesc rest k <;> simp [hd, hn, hn2, GroupComp.set]

theorem lastDesc_isSome (ous : List Entry) (k : String) :
    (lastDesc ous k).isSome = true ↔ ∃ ou ∈ ous, nameOf ou = k ∧ descOf ou ≠ "" := by
  unfold lastDesc
  have hmap : ∀ o : Option Entry, (Option.map descOf o).isSome = o.isSome := by
    intro o
    cases o <;> rfl
  rw [hmap, List.getLast?_isSome]
  constructor
  · intro h
    obtain ⟨ou, hou⟩ := List.exists_mem_of_ne_nil _ h
    rw [List.mem_filter] at hou
    exact ⟨ou, hou.1, by simpa using hou.2⟩
  · rintro ⟨ou, hmem, hp⟩
    apply List.ne_nil_of_mem (a := ou)
    rw [List.mem_filter]
    exact ⟨hmem, by simpa using hp⟩

theorem buildMap_empty_apply (ous : List Entry) (k : String) :
    buildMap ous GroupComp.empty k = lastDesc ous k := by
  rw [buildMap_apply]
  cases lastDesc ous k <;> simp [GroupComp.empty]

/-- C3: when all directory operations succeed, a raw OU name is a key of the
map built by `recreateExistingGroups` exactly when the listing has an OU of
that name with a non-empty description, whatever the order of the listing; a
listing whose OUs all have an empty description, the empty listing among them,
yields the empty map. -/
theorem C3_map_keys_are_described_OUs (ous gs : List Entry) (dir : Directory) (cfg : Config)
    (h : (recreateExistingGroups ous gs dir cfg Proc.init).halt = none) :
    (∀ k, ((recreateExistingGroups ous gs dir cfg Proc.init).groupComp k).isSome = true ↔
        ∃ ou ∈ ous, nameOf ou = k ∧ descOf ou ≠ "") ∧
    (∀ ous2, ous2.Perm ous →
        (recreateExistingGroups ous2 gs dir cfg Proc.init).halt = none →
        ∀ k, ((recreateExistingGroups ous2 gs dir cfg Proc.init).groupComp k).isSome =
          ((recreateExistingGroups ous gs dir cfg Proc.init).groupComp k).isSome) ∧
    ((∀ ou ∈ ous, descOf ou = "") →
        (recreateExistingGroups ous gs dir cfg Proc.init).groupComp = GroupComp.empty) := by
  have key : ∀ (l : List Entry),
      (recreateExistingGroups l gs dir cfg Proc.init).halt = none →
      ∀ k, ((recreateExistingGroups l gs dir cfg Proc.init).groupComp k).isSome = true ↔
        ∃ ou ∈ l, nameOf ou = k ∧ descOf ou ≠ "" := by
    intro l hl k
    rw [recreate_of_halt_none l gs dir cfg hl]
    show (buildMap l GroupComp.empty k).isSome = true ↔ _
    rw [buildMap_empty_apply, lastDesc_isSome]
  refine ⟨key ous h, ?_, ?_⟩
  · intro ous2 hperm h2 k
    rw [Bool.eq_iff_iff, key ous2 h2 k, key ous h k]
    constructor
    · rintro ⟨ou, hm, hp⟩
      exact ⟨ou, hperm.mem_iff.mp hm, hp⟩
    · rintro ⟨ou, hm, hp⟩
      exact ⟨ou, hperm.mem_iff.mpr hm, hp⟩
  · intro hall
    funext k
    have hk := key ous h k
    cases hv : (recreateExistingGroups ous gs dir cfg Proc.init).groupComp k with
    | none => rfl
    | some d =>
      rw [hv] at hk
      obtain ⟨ou, hm, _, hd⟩ := hk.mp rfl
      exact absurd (hall ou hm) hd

/-- Witness of C3: the listing of the `Sales` OU, described, and the `Lab` OU,
not described; the run completes and `Sales` is the only key. -/
theorem C3_map_keys_are_described_OUs_witness :
    (recreateExistingGroups
        [mkOU "OU=Sales,OU=Employees,DC=example,DC=com" "Sales" "Sales Team",
         mkBareOU "OU=Lab,OU=Employees,DC=example,DC=com" "Lab"]
        [] Directory.ok cfg0 Proc.init).halt = none ∧
    (∀ k, ((recreateExistingGroups
        [mkOU "OU=Sales,OU=Employees,DC=example,DC=com" "Sales" "Sales Team",
         mkBareOU "OU=Lab,OU=Employees,DC=example,DC=com" "Lab"]
        [] Directory.ok cfg0 Proc.init).groupComp k).isSome = true ↔
      ∃ ou ∈ [mkOU "OU=Sales,OU=Employees,DC=example,DC=com" "Sales" "Sales Team",
         mkBareOU "OU=Lab,OU=Employees,DC=example,DC=com" "Lab"],
        nameOf ou = k ∧ descOf ou ≠ "") :=
  ⟨by decide, (C3_map_keys_are_described_OUs _ [] Directory.ok cfg0 (by decide)).1⟩

/-- Counterexample to C7 as stated: two OUs are named `Sales`, the last one has
no description, every operation succeeds, and the map holds the description of
the first one, not the (empty) description of the last one. -/
theorem C7_counterexample :
    (recreateExistingGroups salesThenBareSales [] Directory.ok cfg0 Proc.init).halt = none ∧
    1 < (salesThenBareSales.filter (fun ou => decide (nameOf ou = "Sales"))).length ∧
    ((salesThenBareSales.filter (fun ou => decide (nameOf ou = "Sales"))).getLast?).map descOf
      = some "" ∧
    (recreateExistingGroups salesThenBareSales [] Directory.ok cfg0 Proc.init).groupComp "Sales"
      = some "Sales Team" := by
  refine ⟨by decide, by decide, by decide, by decide⟩

/-- C7, amended: when all directory operations succeed, the map built by
`recreateExistingGroups` associates a raw name with the description of the last
listed OU of that name whose description is non-empty, and has no entry for a
name without such an OU. -/
theorem C7_last_described_entry_wins (ous gs : List Entry) (dir : Directory) (cfg : Config)
    (k : String) (h : (recreateExistingGroups ous gs dir cfg Proc.init).halt = none) :
    (recreateExistingGroups ous gs dir cfg Proc.init).groupComp k =
      ((ous.filter (fun ou => decide (nameOf ou = k ∧ descOf ou ≠ ""))).getLast?).map descOf := by
  rw [recreate_of_halt_none ous gs dir cfg h]
  exact buildMap_empty_apply ous k

/-- Witness of C7, amended, on the listing of the counterexample. -/
theorem C7_last_described_entry_wins_witness :
    (recreateExistingGroups salesThenBareSales [] Directory.ok cfg0 Proc.init).halt = none ∧
    (recreateExistingGroups salesThenBareSales [] Directory.ok cfg0 Proc.init).groupComp "Sales" =
      ((salesThenBareSales.filter
        (fun ou => decide (nameOf ou = "Sales" ∧ descOf ou ≠ ""))).getLast?).map descOf :=
  ⟨by decide,
    C7_last_described_entry_wins salesThenBareSales [] Directory.ok cfg0 "Sales" (by decide)⟩

/-! ## The requests of `recreateExistingGroups` -/

theorem recreateRequests_cons (gs : List Entry) (cfg : Config) (ou : Entry) (rest : List Entry) :
    recreateRequests gs cfg (ou :: rest) =
      passRequests gs cfg ou ++ recreateRequests gs cfg rest := by
  simp [recreateRequests]

theorem recreateRequests_split (gs : List Entry) (cfg : Config) (pre : List Entry) (ou : Entry)
    (post : List Entry) :
    recreateRequests gs cfg (pre ++ ou :: post) =
      recreateRequests gs cfg pre ++ passRequests gs cfg ou ++ recreateRequests gs cfg post := by
  simp [recreateRequests]

theorem passRequests_described (gs : List Entry) (cfg : Config) (ou : Entry)
    (h : descOf ou ≠ "") :
    passRequests gs cfg ou = deletesFor (descOf ou) gs ++ [addGroupReq (descOf ou) cfg] := by
  simp [passRequests, h]

theorem deletesFor_isAdd (d : String) (gs : List Entry) :
    (deletesFor d gs).filter Request.isAdd = [] := by
  rw [List.filter_eq_nil_iff]
  intro q hq
  simp only [deletesFor, List.mem_map] at hq
  obtain ⟨g, _, rfl⟩ := hq
  simp [Request.isAdd]

theorem deletesFor_isDel (d : String) (gs : List Entry) :
    (deletesFor d gs).filter Request.isDel = deletesFor d gs := by
  rw [List.filter_eq_self]
  intro q hq
  simp only [deletesFor, List.mem_map] at hq
  obtain ⟨g, _, rfl⟩ := hq
  simp [Request.isDel]

theorem recreateRequests_adds (gs : List Entry) (cfg : Config) (ous : List Entry) :
    (recreateRequests gs cfg ous).filter Request.isAdd =
      (ous.filter (fun ou => decide (descOf ou ≠ ""))).map
        (fun ou => addGroupReq (descOf ou) cfg) := by
  induction ous with
  | nil => simp [recreateRequests]
  | cons ou rest ih =>
    rw [recreateRequests_cons, List.filter_append, ih]
    by_cases h : descOf ou = ""
    · simp [passRequests, h]
    · rw [passRequests_described gs cfg ou h, List.filter_append, deletesFor_isAdd]
      simp [h, addGroupReq, Request.isAdd]

theorem recreateRequests_dels (gs : List Entry) (cfg : Config) (ous : List Entry) :
    (recreateRequests gs cfg ous).filter Request.isDel =
      (ous.filter (fun ou => decide (descOf ou ≠ ""))).flatMap
        (fun ou => deletesFor (descOf ou) gs) := by
  induction ous with
  | nil => simp [recreateRequests]
  | cons ou rest ih =>
    rw [recreateRequests_cons, List.filter_append, ih]
    by_cases h : descOf ou = ""
    · simp [passRequests, h]
    · rw [passRequests_described gs cfg ou h, List.filter_append, deletesFor_isDel]
      simp [h, addGroupReq, Request.isDel]

theorem add_mem_recreateRequests (gs : List Entry) (cfg : Config) (ous : List Entry)
    (ou : Entry) (hm : ou ∈ ous) (hd : descOf ou ≠ "") :
    addGroupReq (descOf ou) cfg ∈ recreateRequests gs cfg ous := by
  unfold recreateRequests
  rw [List.mem_flatMap]
  refine ⟨ou, hm, ?_⟩
  rw [passRequests_described gs cfg ou hd]
  simp

theorem buildMap_value (ous : List Entry) (k d : String)
    (h : buildMap ous GroupComp.empty k = some d) :
    ∃ ou ∈ ous, nameOf ou = k ∧ descOf ou = d ∧ descOf ou ≠ "" := by
  rw [buildMap_empty_apply] at h
  unfold lastDesc at h
  rw [Option.map_eq_some'] at h
  obtain ⟨ou, hlast, hdesc⟩ := h
  have hmem := List.mem_of_getLast?_eq_some hlast
  rw [List.mem_filter] at hmem
  have hp : nameOf ou = k ∧ descOf ou ≠ "" := by simpa using hmem.2
  exact ⟨ou, hmem.1, hp.1, hdesc, hp.2⟩

theorem recreate_log_le_ok (ous gs : List Entry) (dir : Directory) (cfg : Config) :
    (recreateExistingGroups ous gs dir cfg Proc.init).log <+: recreateRequests gs cfg ous := by
  have hok := recreateExistingGroups_ok ous gs cfg Proc.init rfl
  have hoklog : (recreateLoop Directory.ok gs cfg ous Proc.init).log =
      recreateRequests gs cfg ous := by
    unfold recreateExistingGroups at hok
    rw [hok]
    simp [Proc.init]
  rcases recreateLoop_tracks dir gs cfg ous Proc.init rfl (allAccepted_nil dir) with
    ⟨hab, _, _⟩ | ⟨_, hp, _⟩
  · unfold recreateExistingGroups
    rw [hab, hoklog]
  · unfold recreateExistingGroups
    rw [← hoklog]
    exact hp

theorem mem_recreateRequests (gs : List Entry) (cfg : Config) (ous : List Entry) (q : Request)
    (h : q ∈ recreateRequests gs cfg ous) :
    ∃ ou ∈ ous, descOf ou ≠ "" ∧
      (q = addGroupReq (descOf ou) cfg ∨ ∃ g ∈ gs, nameOf g = descOf ou ∧ q = Request.Del g.DN) := by
  unfold recreateRequests at h
  rw [List.mem_flatMap] at h
  obtain ⟨ou, hm, hq⟩ := h
  by_cases hd : descOf ou = ""
  · simp [passRequests, hd] at hq
  · refine ⟨ou, hm, hd, ?_⟩
    rw [passRequests_described gs cfg ou hd, List.mem_append] at hq
    rcases hq with hq | hq
    · right
      simp only [deletesFor, List.mem_map, List.mem_filter] at hq
      obtain ⟨g, ⟨hg, hn⟩, rfl⟩ := hq
      exact ⟨g, hg, by simpa using hn, rfl⟩
    · left
      simpa using hq

/-- The call of `recreateExistingGroups` in `main` returns exactly when the
directory accepts, each in its turn, the requests of the passes of the listed
OUs. -/
theorem recreateExistingGroups_returns_iff (ous gs : List Entry) (dir : Directory)
    (cfg : Config) :
    (recreateExistingGroups ous gs dir cfg Proc.init).halt = none ↔
      AllAccepted dir (recreateRequests gs cfg ous) := by
  have hok := recreateExistingGroups_ok ous gs cfg Proc.init rfl
  have hoklog : (recreateLoop Directory.ok gs cfg ous Proc.init).log =
      recreateRequests gs cfg ous := by
    unfold recreateExistingGroups at hok
    rw [hok]
    simp [Proc.init]
  have hokhalt : (recreateLoop Directory.ok gs cfg ous Proc.init).halt = none := by
    unfold recreateExistingGroups at hok
    rw [hok]
  unfold recreateExistingGroups
  rcases recreateLoop_tracks dir gs cfg ous Proc.init rfl (allAccepted_nil dir) with
    ⟨hab, _, hacc⟩ | ⟨hfail, hp, pre, q, hlog, _, hd⟩
  · constructor
    · intro _
      rw [← hoklog, ← hab]
      exact hacc
    · intro _
      rw [hab]
      exact hokhalt
  · constructor
    · intro h
      rw [h] at hfail
      simp at hfail
    · intro hacc
      rw [hoklog, hlog] at hp
      rw [hacc pre q hp] at hd
      simp at hd

/-- On a directory that accepts every request `fillGroups` returns as soon as
the OU names of every listed user can be computed. -/
theorem fillGroups_returns (P : String → Option DN) (users : List Entry) (cfg : Config)
    (s : Proc) (hs : s.halt = none)
    (hp : ∀ u ∈ users, ∃ l, getOUnamesFromDN P u cfg = Except.ok l) :
    (fillGroups P users Directory.ok cfg s).halt = none := by
  unfold fillGroups
  induction users generalizing s with
  | nil => exact hs
  | cons user rest ih =>
    obtain ⟨l, hl⟩ := hp user (List.mem_cons_self _ _)
    have hh : (addMember Directory.ok cfg user l s).halt = none := by
      rw [addMember_ok_halt]
      exact hs
    rw [fillLoop_pass P Directory.ok cfg user rest s l hl hh]
    exact ih _ hh (fun u hu => hp u (List.mem_cons_of_mem _ hu))

/-- Counterexample to C1 as stated: with two described OUs named `Sales`, every
operation succeeds, an add request goes out for `Sales East`, and `Sales East`
is not a value of the resulting map; with two OUs described as `Sales Team`,
that display name is a value of the map and gets two add requests. -/
theorem C1_counterexample :
    (recreateExistingGroups twoSalesOUs [] Directory.ok cfg0 Proc.init).halt = none ∧
    addGroupReq "Sales East" cfg0 ∈
      (recreateExistingGroups twoSalesOUs [] Directory.ok cfg0 Proc.init).log ∧
    (∀ k, (recreateExistingGroups twoSalesOUs [] Directory.ok cfg0 Proc.init).groupComp k
      ≠ some "Sales East") ∧
    (recreateExistingGroups twoOUsOneDesc [] Directory.ok cfg0 Proc.init).halt = none ∧
    (recreateExistingGroups twoOUsOneDesc [] Directory.ok cfg0 Proc.init).groupComp "Sales"
      = some "Sales Team" ∧
    (recreateExistingGroups twoOUsOneDesc [] Directory.ok cfg0 Proc.init).log.filter Request.isAdd
      = [addGroupReq "Sales Team" cfg0, addGroupReq "Sales Team" cfg0] := by
  refine ⟨by decide, by decide, ?_, by decide, by decide, by decide⟩
  intro k hk
  have hrun := recreate_of_halt_none twoSalesOUs [] Directory.ok cfg0 (by decide)
  rw [hrun] at hk
  obtain ⟨ou, hm, hn, _, _⟩ := buildMap_value twoSalesOUs k "Sales East" hk
  have hall : ∀ ou ∈ twoSalesOUs, nameOf ou = "Sales" := by decide
  rw [hall ou hm] at hn
  subst hn
  have hv : buildMap twoSalesOUs GroupComp.empty "Sales" = some "Sales West" := by decide
  have hk2 : buildMap twoSalesOUs GroupComp.empty "Sales" = some "Sales East" := hk
  rw [hv] at hk2
  exact absurd hk2 (by decide)

/-- C1, amended: when all directory operations succeed, the add requests of
`recreateExistingGroups` are exactly one per listed OU with a non-empty
description, for that description and in listing order, and the delete
requests are, for each such OU in turn, one per listed existing group named
like its description; nothing else is sent, and every display name that is a
value of the resulting map gets at least one add request. -/
theorem C1_one_add_per_described_OU (ous gs : List Entry) (dir : Directory) (cfg : Config)
    (h : (recreateExistingGroups ous gs dir cfg Proc.init).halt = none) :
    (recreateExistingGroups ous gs dir cfg Proc.init).log.filter Request.isAdd =
      (ous.filter (fun ou => decide (descOf ou ≠ ""))).map
        (fun ou => addGroupReq (descOf ou) cfg) ∧
    (recreateExistingGroups ous gs dir cfg Proc.init).log.filter Request.isDel =
      (ous.filter (fun ou => decide (descOf ou ≠ ""))).flatMap
        (fun ou => (gs.filter (fun g => decide (nameOf g = descOf ou))).map
          (fun g => Request.Del g.DN)) ∧
    (∀ q ∈ (recreateExistingGroups ous gs dir cfg Proc.init).log,
      q.isAdd = true ∨ q.isDel = true) ∧
    (∀ k d, (recreateExistingGroups ous gs dir cfg Proc.init).groupComp k = some d →
      addGroupReq d cfg ∈ (recreateExistingGroups ous gs dir cfg Proc.init).log) := by
  rw [recreate_of_halt_none ous gs dir cfg h]
  refine ⟨recreateRequests_adds gs cfg ous, recreateRequests_dels gs cfg ous, ?_, ?_⟩
  · intro q hq
    obtain ⟨ou, _, _, hq | ⟨g, _, _, hq⟩⟩ := mem_recreateRequests gs cfg ous q hq
    · left
      rw [hq]
      rfl
    · right
      rw [hq]
      rfl
  · intro k d hk
    obtain ⟨ou, hm, _, hd, hne⟩ := buildMap_value ous k d hk
    rw [← hd]
    exact add_mem_recreateRequests gs cfg ous ou hm hne

/-- Witness of C1, amended, on the listing of the counterexample and one
existing group. -/
theorem C1_one_add_per_described_OU_witness :
    (recreateExistingGroups twoOUsOneDesc [oldSalesTeam] Directory.ok cfg0 Proc.init).halt
      = none ∧
    (recreateExistingGroups twoOUsOneDesc [oldSalesTeam] Directory.ok cfg0
      Proc.init).log.filter Request.isAdd =
      (twoOUsOneDesc.filter (fun ou => decide (descOf ou ≠ ""))).map
        (fun ou => addGroupReq (descOf ou) cfg0) :=
  ⟨by decide,
    (C1_one_add_per_described_OU twoOUsOneDesc [oldSalesTeam] Directory.ok cfg0 (by decide)).1⟩

/-- C4: when `recreateExistingGroups` runs to its end, the pass of an OU with
non-empty description `d` sends a delete request for the DN of each listed
existing group named `d`, in listing order and for no other group, and sends
them all before its add request; the requests of the earlier OUs come before
this pass, those of the later OUs after it. -/
theorem C4_deletes_then_add (pre post gs : List Entry) (ou : Entry) (dir : Directory)
    (cfg : Config) (hd : descOf ou ≠ "")
    (h : (recreateExistingGroups (pre ++ ou :: post) gs dir cfg Proc.init).halt = none) :
    (recreateExistingGroups (pre ++ ou :: post) gs dir cfg Proc.init).log =
      recreateRequests gs cfg pre ++
        ((gs.filter (fun g => decide (nameOf g = descOf ou))).map (fun g => Request.Del g.DN) ++
          [addGroupReq (descOf ou) cfg]) ++
        recreateRequests gs cfg post := by
  rw [recreate_of_halt_none _ gs dir cfg h]
  show recreateRequests gs cfg (pre ++ ou :: post) = _
  rw [recreateRequests_split, passRequests_described gs cfg ou hd]
  rfl

/-- Witness of C4, the scenario of the specification: the `Sales` OU described
as `Sales Team`, an existing group of that name and one named `Staff`; one
delete request for the DN of the first, followed by the add request. -/
theorem C4_deletes_then_add_witness :
    descOf ouSales ≠ "" ∧
    (recreateExistingGroups ([] ++ ouSales :: []) [oldStaff, oldSalesTeam] Directory.ok cfg0
      Proc.init).halt = none ∧
    (recreateExistingGroups ([] ++ ouSales :: []) [oldStaff, oldSalesTeam] Directory.ok cfg0
      Proc.init).log =
      [Request.Del "CN=Sales Team,OU=Legacy,OU=Groups,DC=example,DC=com",
       Request.Add "CN=Sales Team,OU=Groups,DC=example,DC=com"
        [⟨"objectClass", ["group", "top"]⟩, ⟨"groupType", ["-2147483646"]⟩,
         ⟨"sAMAccountName", ["Sales Team"]⟩]] :=
  ⟨by decide, by decide,
    (C4_deletes_then_add [] [] [oldStaff, oldSalesTeam] ouSales Directory.ok cfg0
      (by decide) (by decide)).trans (by decide)⟩

/-- C5: for an OU with non-empty description `d`, the add request of its pass
has DN `CN=d,GroupBaseDN` and exactly the attributes `objectClass = [group,
top]`, `groupType = [-2147483646]` and `sAMAccountName = [d]`; when no listed
existing group is named `d`, that add request is all the pass sends.  Whatever
the directory answers, every add request that goes out has this shape for some
listed OU with a non-empty description. -/
theorem C5_add_request_shape (pre post gs : List Entry) (ou : Entry) (dir : Directory)
    (cfg : Config) (hd : descOf ou ≠ "")
    (h : (recreateExistingGroups (pre ++ ou :: post) gs dir cfg Proc.init).halt = none) :
    (recreateExistingGroups (pre ++ ou :: post) gs dir cfg Proc.init).log =
      recreateRequests gs cfg pre ++
        (deletesFor (descOf ou) gs ++
          [Request.Add ("CN=" ++ descOf ou ++ "," ++ cfg.GroupBaseDN)
            [⟨"objectClass", ["group", "top"]⟩, ⟨"groupType", ["-2147483646"]⟩,
             ⟨"sAMAccountName", [descOf ou]⟩]]) ++
        recreateRequests gs cfg post ∧
    ((∀ g ∈ gs, nameOf g ≠ descOf ou) →
      (recreateExistingGroups (pre ++ ou :: post) gs dir cfg Proc.init).log =
        recreateRequests gs cfg pre ++
          [Request.Add ("CN=" ++ descOf ou ++ "," ++ cfg.GroupBaseDN)
            [⟨"objectClass", ["group", "top"]⟩, ⟨"groupType", ["-2147483646"]⟩,
             ⟨"sAMAccountName", [descOf ou]⟩]] ++
          recreateRequests gs cfg post) ∧
    (∀ (dir2 : Directory) (dn : String) (attrs : List Attribute),
      Request.Add dn attrs ∈
        (recreateExistingGroups (pre ++ ou :: post) gs dir2 cfg Proc.init).log →
      ∃ o ∈ pre ++ ou :: post, descOf o ≠ "" ∧
        dn = "CN=" ++ descOf o ++ "," ++ cfg.GroupBaseDN ∧
        attrs = [⟨"objectClass", ["group", "top"]⟩, ⟨"groupType", ["-2147483646"]⟩,
          ⟨"sAMAccountName", [descOf o]⟩]) := by
  have hlog : (recreateExistingGroups (pre ++ ou :: post) gs dir cfg Proc.init).log =
      recreateRequests gs cfg pre ++
        (deletesFor (descOf ou) gs ++ [addGroupReq (descOf ou) cfg]) ++
        recreateRequests gs cfg post := by
    rw [recreate_of_halt_none _ gs dir cfg h]
    show recreateRequests gs cfg (pre ++ ou :: post) = _
    rw [recreateRequests_split, passRequests_described gs cfg ou hd]
  refine ⟨hlog, ?_, ?_⟩
  · intro hno
    have hnil : deletesFor (descOf ou) gs = [] := by
      unfold deletesFor
      rw [List.map_eq_nil_iff, List.filter_eq_nil_iff]
      intro g hg
      simpa using hno g hg
    rw [hlog, hnil]
    rfl
  · intro dir2 dn attrs hmem
    have hmem2 := (recreate_log_le_ok (pre ++ ou :: post) gs dir2 cfg).subset hmem
    obtain ⟨o, ho, hdo, hq | ⟨g, _, _, hq⟩⟩ := mem_recreateRequests gs cfg _ _ hmem2
    · refine ⟨o, ho, hdo, ?_⟩
      simp only [addGroupReq, Request.Add.injEq] at hq
      exact ⟨hq.1, by simpa using hq.2⟩
    · exact absurd hq (by simp)

/-- Witness of C5: the `Sales` OU, no existing group named `Sales Team`; the
one request is the add request of the scenario. -/
theorem C5_add_request_shape_witness :
    descOf ouSales ≠ "" ∧
    (recreateExistingGroups ([] ++ ouSales :: []) [oldStaff] Directory.ok cfg0
      Proc.init).halt = none ∧
    (recreateExistingGroups ([] ++ ouSales :: []) [oldStaff] Directory.ok cfg0 Proc.init).log =
      [Request.Add "CN=Sales Team,OU=Groups,DC=example,DC=com"
        [⟨"objectClass", ["group", "top"]⟩, ⟨"groupType", ["-2147483646"]⟩,
         ⟨"sAMAccountName", ["Sales Team"]⟩]] :=
  ⟨by decide, by decide,
    ((C5_add_request_shape [] [] [oldStaff] ouSales Directory.ok cfg0
      (by decide) (by decide)).2.1 (by decide)).trans (by decide)⟩

/-- Counterexample to C6 as stated: two OUs are described as `Sales Team` and
every operation succeeds.  With no existing group, the run sends two add
requests and no delete request at all; with an existing group of that name
elsewhere, the second pass deletes that group a second time.  In neither run
is there a delete request for `CN=Sales Team,GroupBaseDN`, the group the first
pass created. -/
theorem C6_counterexample :
    (recreateExistingGroups twoOUsOneDesc [] Directory.ok cfg0 Proc.init).halt = none ∧
    (recreateExistingGroups twoOUsOneDesc [] Directory.ok cfg0 Proc.init).log =
      [addGroupReq "Sales Team" cfg0, addGroupReq "Sales Team" cfg0] ∧
    (recreateExistingGroups twoOUsOneDesc [oldSalesTeam] Directory.ok cfg0 Proc.init).halt
      = none ∧
    (recreateExistingGroups twoOUsOneDesc [oldSalesTeam] Directory.ok cfg0 Proc.init).log =
      [Request.Del "CN=Sales Team,OU=Legacy,OU=Groups,DC=example,DC=com",
       addGroupReq "Sales Team" cfg0,
       Request.Del "CN=Sales Team,OU=Legacy,OU=Groups,DC=example,DC=com",
       addGroupReq "Sales Team" cfg0] ∧
    Request.Del ("CN=" ++ "Sales Team" ++ "," ++ cfg0.GroupBaseDN) ∉
      (recreateExistingGroups twoOUsOneDesc [] Directory.ok cfg0 Proc.init).log ∧
    Request.Del ("CN=" ++ "Sales Team" ++ "," ++ cfg0.GroupBaseDN) ∉
      (recreateExistingGroups twoOUsOneDesc [oldSalesTeam] Directory.ok cfg0 Proc.init).log := by
  refine ⟨by decide, by decide, by decide, by decide, by decide, by decide⟩

/-- C6, amended: when two listed OUs carry the same non-empty description `d`,
the pass of the second one sends again a delete request for each group named
`d` of the listing read before the run, then a second add request for
`CN=d,GroupBaseDN` with the same attributes; the group the first pass created
gets a delete request only when a listed existing group named `d` already had
that DN.  On any directory the run sends a beginning of this sequence, and the
whole of it when it runs to its end. -/
theorem C6_second_pass_repeats_first (pre mid post gs : List Entry) (ou1 ou2 : Entry)
    (dir : Directory) (cfg : Config) (h1 : descOf ou1 ≠ "") (h2 : descOf ou2 = descOf ou1) :
    (recreateExistingGroups (pre ++ ou1 :: (mid ++ ou2 :: post)) gs dir cfg Proc.init).log <+:
      recreateRequests gs cfg pre ++
        (deletesFor (descOf ou1) gs ++ [addGroupReq (descOf ou1) cfg]) ++
        recreateRequests gs cfg mid ++
        (deletesFor (descOf ou1) gs ++ [addGroupReq (descOf ou1) cfg]) ++
        recreateRequests gs cfg post ∧
    ((recreateExistingGroups (pre ++ ou1 :: (mid ++ ou2 :: post)) gs dir cfg Proc.init).halt
        = none →
      (recreateExistingGroups (pre ++ ou1 :: (mid ++ ou2 :: post)) gs dir cfg Proc.init).log =
        recreateRequests gs cfg pre ++
          (deletesFor (descOf ou1) gs ++ [addGroupReq (descOf ou1) cfg]) ++
          recreateRequests gs cfg mid ++
          (deletesFor (descOf ou1) gs ++ [addGroupReq (descOf ou1) cfg]) ++
          recreateRequests gs cfg post) ∧
    (Request.Del ("CN=" ++ descOf ou1 ++ "," ++ cfg.GroupBaseDN) ∈ deletesFor (descOf ou1) gs ↔
      ∃ g ∈ gs, nameOf g = descOf ou1 ∧ g.DN = "CN=" ++ descOf ou1 ++ "," ++ cfg.GroupBaseDN) := by
  have hseq : recreateRequests gs cfg (pre ++ ou1 :: (mid ++ ou2 :: post)) =
      recreateRequests gs cfg pre ++
        (deletesFor (descOf ou1) gs ++ [addGroupReq (descOf ou1) cfg]) ++
        recreateRequests gs cfg mid ++
        (deletesFor (descOf ou1) gs ++ [addGroupReq (descOf ou1) cfg]) ++
        recreateRequests gs cfg post := by
    have h2ne : descOf ou2 ≠ "" := by
      rw [h2]
      exact h1
    rw [recreateRequests_split, recreateRequests_split, passRequests_described gs cfg ou1 h1,
      passRequests_described gs cfg ou2 h2ne, h2]
    simp only [List.append_assoc]
  refine ⟨?_, ?_, ?_⟩
  · rw [← hseq]
    exact recreate_log_le_ok _ gs dir cfg
  · intro h
    rw [← hseq, recreate_of_halt_none _ gs dir cfg h]
  · simp only [deletesFor, List.mem_map, List.mem_filter, Request.Del.injEq]
    constructor
    · rintro ⟨g, ⟨hg, hn⟩, hdn⟩
      exact ⟨g, hg, by simpa using hn, hdn⟩
    · rintro ⟨g, hg, hn, hdn⟩
      exact ⟨g, ⟨hg, by simpa using hn⟩, hdn⟩

/-- Witness of C6, amended, on the listing of the counterexample with an
existing group named `Sales Team`. -/
theorem C6_second_pass_repeats_first_witness :
    descOf ouSales ≠ "" ∧
    descOf (mkOU "OU=Presales,OU=Employees,DC=example,DC=com" "Presales" "Sales Team")
      = descOf ouSales ∧
    (recreateExistingGroups ([] ++ ouSales :: ([] ++
      mkOU "OU=Presales,OU=Employees,DC=example,DC=com" "Presales" "Sales Team" :: []))
      [oldSalesTeam] Directory.ok cfg0 Proc.init).log =
      [Request.Del "CN=Sales Team,OU=Legacy,OU=Groups,DC=example,DC=com",
       addGroupReq "Sales Team" cfg0,
       Request.Del "CN=Sales Team,OU=Legacy,OU=Groups,DC=example,DC=com",
       addGroupReq "Sales Team" cfg0] :=
  ⟨by decide, by decide,
    ((C6_second_pass_repeats_first [] [] [] [oldSalesTeam] ouSales
      (mkOU "OU=Presales,OU=Employees,DC=example,DC=com" "Presales" "Sales Team")
      Directory.ok cfg0 (by decide) (by decide)).2.1 (by decide)).trans (by decide)⟩

/-! ## The OU names of a DN -/

theorem collectOUnames_cons (cfg : Config) (o : RelativeDN) (rest : List RelativeDN)
    (acc : List String) (a0 : AttributeTypeAndValue) (more : List AttributeTypeAndValue)
    (ho : o.Attributes = a0 :: more) :
    collectOUnames cfg (o :: rest) acc =
      collectOUnames cfg rest (acc ++ (ouOfRDN cfg o).toList) := by
  simp only [collectOUnames, ho, ouOfRDN, List.head?_cons]
  by_cases ht : a0.Typ = "OU"
  · by_cases hv : a0.Value = cfg.UserBaseOU
    · simp [ht, hv]
    · simp [ht, hv]
  · simp [ht]

theorem collectOUnames_ok (cfg : Config) (rdns : List RelativeDN) (acc : List String)
    (h : ∀ o ∈ rdns, o.Attributes ≠ []) :
    collectOUnames cfg rdns acc = Except.ok (acc ++ rdns.filterMap (ouOfRDN cfg)) := by
  induction rdns generalizing acc with
  | nil => simp [collectOUnames]
  | cons o rest ih =>
    cases ho : o.Attributes with
    | nil => exact absurd ho (h o (List.mem_cons_self _ _))
    | cons a0 more =>
      rw [collectOUnames_cons cfg o rest acc a0 more ho,
        ih _ (fun x hx => h x (List.mem_cons_of_mem _ hx))]
      cases hou : ouOfRDN cfg o <;> simp [List.filterMap_cons, hou]

theorem ouOfRDN_eq_some (cfg : Config) (o : RelativeDN) (ou : String) :
    ouOfRDN cfg o = some ou ↔
      (∃ a0, o.Attributes.head? = some a0 ∧ a0.Typ = "OU" ∧ a0.Value = ou) ∧
        ou ≠ cfg.UserBaseOU := by
  unfold ouOfRDN
  cases hh : o.Attributes.head? with
  | none => simp
  | some a0 =>
    by_cases ht : a0.Typ = "OU"
    · by_cases hv : a0.Value = cfg.UserBaseOU
      · simp only [ht, hv, ne_eq, not_true_eq_false, and_false, if_false]
        constructor
        · intro h
          simp at h
        · rintro ⟨⟨a, ha, _, hav⟩, hne⟩
          have := Option.some.inj ha
          subst this
          exact absurd (hv.symm.trans hav).symm hne
      · simp only [ht, hv, ne_eq, not_false_eq_true, and_self, if_true]
        constructor
        · intro h
          have := Option.some.inj h
          subst this
          exact ⟨⟨a0, rfl, ht, rfl⟩, hv⟩
        · rintro ⟨⟨a, ha, _, hav⟩, _⟩
          have := Option.some.inj ha
          subst this
          rw [hav]
    · simp only [ht, false_and, if_false]
      constructor
      · intro h
        simp at h
      · rintro ⟨⟨a, ha, hat, _⟩, _⟩
        have := Option.some.inj ha
        subst this
        exact absurd hat ht

theorem mem_ouNames (cfg : Config) (dn : DN) (ou : String) :
    ou ∈ dn.RDNs.filterMap (ouOfRDN cfg) ↔ IsOUComponent dn ou ∧ ou ≠ cfg.UserBaseOU := by
  rw [List.mem_filterMap]
  unfold IsOUComponent
  constructor
  · rintro ⟨o, hm, ho⟩
    obtain ⟨⟨a0, h1, h2, h3⟩, hne⟩ := (ouOfRDN_eq_some cfg o ou).mp ho
    exact ⟨⟨o, hm, a0, h1, h2, h3⟩, hne⟩
  · rintro ⟨⟨o, hm, a0, hh, ht, hv⟩, hne⟩
    exact ⟨o, hm, (ouOfRDN_eq_some cfg o ou).mpr ⟨⟨a0, hh, ht, hv⟩, hne⟩⟩

/-- C9: for a DN that parses into relative names with at least one attribute
each, `getOUnamesFromDN` returns, in DN order, the values of the first
attributes that have type `OU` and a value other than `UserBaseOU`; the base OU
is not in the result, and cutting every relative name down to its first
attribute does not change the result. -/
theorem C9_getOUnamesFromDN_first_attributes (P : String → Option DN) (entry : Entry)
    (cfg : Config) (dn : DN) (hp : P entry.DN = some dn)
    (hne : ∀ o ∈ dn.RDNs, o.Attributes ≠ []) :
    getOUnamesFromDN P entry cfg = Except.ok (dn.RDNs.filterMap (fun o =>
      match o.Attributes.head? with
      | some a0 => if a0.Typ = "OU" ∧ a0.Value ≠ cfg.UserBaseOU then some a0.Value else none
      | none => none)) ∧
    cfg.UserBaseOU ∉ dn.RDNs.filterMap (ouOfRDN cfg) ∧
    getOUnamesFromDN (fun _ => some ⟨dn.RDNs.map (fun o => ⟨o.Attributes.take 1⟩)⟩) entry cfg =
      getOUnamesFromDN P entry cfg := by
  have hmain : getOUnamesFromDN P entry cfg = Except.ok (dn.RDNs.filterMap (ouOfRDN cfg)) := by
    unfold getOUnamesFromDN
    rw [hp]
    simpa using collectOUnames_ok cfg dn.RDNs [] hne
  refine ⟨hmain, ?_, ?_⟩
  · intro hmem
    exact ((mem_ouNames cfg dn cfg.UserBaseOU).mp hmem).2 rfl
  · rw [hmain]
    unfold getOUnamesFromDN
    have hne2 : ∀ o ∈ dn.RDNs.map (fun o => (⟨o.Attributes.take 1⟩ : RelativeDN)),
        o.Attributes ≠ [] := by
      intro o ho
      rw [List.mem_map] at ho
      obtain ⟨x, hx, rfl⟩ := ho
      have := hne x hx
      cases hxa : x.Attributes with
      | nil => exact absurd hxa this
      | cons a more => simp
    simp only
    rw [collectOUnames_ok cfg _ [] hne2, List.filterMap_map]
    simp only [List.nil_append]
    congr 1
    apply List.filterMap_congr
    intro x _
    simp only [Function.comp, ouOfRDN]
    cases x.Attributes <;> simp

/-- Witness of C9: the DN `CN=Joe+OU=Lab,OU=Sales,OU=Employees,DC=example,DC=com`
with base OU `Employees` yields `Sales` alone. -/
theorem C9_getOUnamesFromDN_first_attributes_witness :
    sampleParseDN userJoe.DN =
      some ⟨[⟨[⟨"CN", "Joe"⟩, ⟨"OU", "Lab"⟩]⟩, ⟨[⟨"OU", "Sales"⟩]⟩, ⟨[⟨"OU", "Employees"⟩]⟩,
        ⟨[⟨"DC", "example"⟩]⟩, ⟨[⟨"DC", "com"⟩]⟩]⟩ ∧
    getOUnamesFromDN sampleParseDN userJoe cfg0 = Except.ok ["Sales"] :=
  ⟨by decide,
    (C9_getOUnamesFromDN_first_attributes sampleParseDN userJoe cfg0
      ⟨[⟨[⟨"CN", "Joe"⟩, ⟨"OU", "Lab"⟩]⟩, ⟨[⟨"OU", "Sales"⟩]⟩, ⟨[⟨"OU", "Employees"⟩]⟩,
        ⟨[⟨"DC", "example"⟩]⟩, ⟨[⟨"DC", "com"⟩]⟩]⟩ (by decide) (by decide)).1.trans rfl⟩

/-! ## The requests of `fillGroups` -/

theorem main_ok_eq (P : String → Option DN) (ous users gs : List Entry) (cfg : Config) :
    main P ous users gs Directory.ok cfg =
      fillLoop P Directory.ok cfg users
        ⟨recreateRequests gs cfg ous, buildMap ous GroupComp.empty, none⟩ := by
  have hb := recreateExistingGroups_ok ous gs cfg Proc.init rfl
  have hbh : (recreateExistingGroups ous gs Directory.ok cfg Proc.init).halt = none := by
    rw [hb]
  simp only [main, hbh, fillGroups]
  rw [hb]
  simp [Proc.init]

theorem main_log_le_ok (P : String → Option DN) (ous users gs : List Entry) (dir : Directory)
    (cfg : Config) :
    (main P ous users gs dir cfg).log <+: (main P ous users gs Directory.ok cfg).log := by
  rcases main_tracks P ous users gs dir cfg with ⟨hab, _, _⟩ | ⟨_, hp, _⟩
  · rw [hab]
  · exact hp

theorem fillLoop_ok_log (P : String → Option DN) (cfg : Config) (users : List Entry)
    (s : Proc) (hs : s.halt = none) :
    ∃ F, (fillLoop P Directory.ok cfg users s).log = s.log ++ F ∧
      ∀ q ∈ F, ∃ ou d udn, s.groupComp ou = some d ∧ q = modGroupReq d udn cfg := by
  induction users generalizing s with
  | nil => exact ⟨[], by simp [fillLoop], by simp⟩
  | cons user rest ih =>
    cases hg : getOUnamesFromDN P user cfg with
    | error e =>
      rw [fillLoop_error P Directory.ok cfg user rest s e hg]
      exact ⟨[], by simp [logFatal], by simp⟩
    | ok l =>
      have hh : (addMember Directory.ok cfg user l s).halt = none := by
        rw [addMember_ok_halt]
        exact hs
      rw [fillLoop_pass P Directory.ok cfg user rest s l hg hh]
      obtain ⟨F, hF, hq⟩ := ih _ hh
      rw [addMember_ok] at hF hq
      rw [addMember_ok, hF]
      refine ⟨memberRequests s.groupComp cfg user l ++ F, by simp, ?_⟩
      intro q hmem
      rcases List.mem_append.mp hmem with hm | hm
      · simp only [memberRequests, List.mem_filterMap, Option.map_eq_some'] at hm
        obtain ⟨ou, _, d, hd, hq2⟩ := hm
        exact ⟨ou, d, user.DN, hd, hq2.symm⟩
      · exact hq q hm

/-- C8: when the directory rejects a delete, add or modify request of the run,
the process stops there: the rejected request is the last one sent and the
requests sent are a beginning of the request sequence of the run in which
nothing is rejected, so that nothing is sent for the remaining OUs and users
and nothing to undo what was written.  When no request is rejected the run is
that failure-free run. -/
theorem C8_abort_at_rejected_request (P : String → Option DN) (ous users gs : List Entry)
    (dir : Directory) (cfg : Config) :
    (∀ pre q, pre ++ [q] <+: (main P ous users gs dir cfg).log → dir pre q = true →
      (main P ous users gs dir cfg).halt = some Halt.requestFailed ∧
      (main P ous users gs dir cfg).log = pre ++ [q] ∧
      pre ++ [q] <+: (main P ous users gs Directory.ok cfg).log) ∧
    ((∀ pre q, pre ++ [q] <+: (main P ous users gs dir cfg).log → dir pre q = false) →
      main P ous users gs dir cfg = main P ous users gs Directory.ok cfg) ∧
    ((main P ous users gs dir cfg).halt = some Halt.requestFailed →
      ∃ pre q, (main P ous users gs dir cfg).log = pre ++ [q] ∧ dir pre q = true) := by
  rcases main_tracks P ous users gs dir cfg with ⟨hab, hne, hacc⟩ | ⟨hfail, hp, pre0, q0, hlog, hacc, hd⟩
  · refine ⟨?_, fun _ => hab, fun hf => absurd hf hne⟩
    intro pre q hpre hdq
    rw [hacc pre q hpre] at hdq
    exact absurd hdq (by simp)
  · refine ⟨?_, ?_, fun _ => ⟨pre0, q0, hlog, hd⟩⟩
    · intro pre q hpre hdq
      rw [hlog] at hpre
      rcases List.prefix_concat_iff.mp hpre with heq | hlt
      · refine ⟨hfail, ?_, ?_⟩
        · rw [hlog, heq]
        · rw [heq, ← hlog]
          exact hp
      · rw [hacc pre q hlt] at hdq
        exact absurd hdq (by simp)
    · intro hall
      have := hall pre0 q0 (by rw [hlog])
      rw [hd] at this
      exact absurd this (by simp)

/-- Witness of C8: two OUs described as `Sales Team`, one existing group of
that name, one user, and a directory that rejects the second request; the run
stops after the delete and the add of the first pass. -/
theorem C8_abort_at_rejected_request_witness :
    (main sampleParseDN twoOUsOneDesc [userJane] [oldSalesTeam] Directory.ok cfg0).log =
      [Request.Del "CN=Sales Team,OU=Legacy,OU=Groups,DC=example,DC=com",
       addGroupReq "Sales Team" cfg0,
       Request.Del "CN=Sales Team,OU=Legacy,OU=Groups,DC=example,DC=com",
       addGroupReq "Sales Team" cfg0,
       modGroupReq "Sales Team" "CN=Jane,OU=Sales,OU=Employees,DC=example,DC=com" cfg0] ∧
    (main sampleParseDN twoOUsOneDesc [userJane] [oldSalesTeam] rejectSecond cfg0).halt =
      some Halt.requestFailed ∧
    (main sampleParseDN twoOUsOneDesc [userJane] [oldSalesTeam] rejectSecond cfg0).log =
      [Request.Del "CN=Sales Team,OU=Legacy,OU=Groups,DC=example,DC=com"] ++
        [addGroupReq "Sales Team" cfg0] :=
  ⟨by decide,
    ((C8_abort_at_rejected_request sampleParseDN twoOUsOneDesc [userJane] [oldSalesTeam]
      rejectSecond cfg0).1
        [Request.Del "CN=Sales Team,OU=Legacy,OU=Groups,DC=example,DC=com"]
        (addGroupReq "Sales Team" cfg0) (by decide) (by decide)).1,
    ((C8_abort_at_rejected_request sampleParseDN twoOUsOneDesc [userJane] [oldSalesTeam]
      rejectSecond cfg0).1
        [Request.Del "CN=Sales Team,OU=Legacy,OU=Groups,DC=example,DC=com"]
        (addGroupReq "Sales Team" cfg0) (by decide) (by decide)).2.1⟩

/-- C10: every modify request of a run targets a DN for which the run sent an
add request before; `fillGroups` only runs once `recreateExistingGroups` has
returned, and it looks its groups up in the map that call built. -/
theorem C10_modify_targets_created_group (P : String → Option DN)
    (ous users gs : List Entry) (dir : Directory) (cfg : Config)
    (pre post : List Request) (dn : String) (ch : List Change)
    (h : (main P ous users gs dir cfg).log = pre ++ Request.Modify dn ch :: post) :
    ∃ attrs, Request.Add dn attrs ∈ pre := by
  have hle := main_log_le_ok P ous users gs dir cfg
  rw [main_ok_eq, h] at hle
  obtain ⟨F, hF, hq⟩ := fillLoop_ok_log P cfg users
    ⟨recreateRequests gs cfg ous, buildMap ous GroupComp.empty, none⟩ rfl
  rw [hF] at hle
  obtain ⟨t, ht⟩ := hle
  have hnoMod : Request.Modify dn ch ∉ recreateRequests gs cfg ous := by
    intro hmem
    obtain ⟨_, _, _, hq2 | ⟨_, _, _, hq2⟩⟩ := mem_recreateRequests gs cfg ous _ hmem
    · simp [addGroupReq] at hq2
    · simp at hq2
  have hsplit : recreateRequests gs cfg ous ⊆ pre ∧ Request.Modify dn ch ∈ F := by
    have ht2 : pre ++ (Request.Modify dn ch :: (post ++ t)) =
        recreateRequests gs cfg ous ++ F := by
      rw [← ht]
      simp
    rcases List.append_eq_append_iff.mp ht2 with ⟨a, ha, hb⟩ | ⟨c, hc, hd⟩
    · cases a with
      | nil =>
        simp only [List.append_nil] at ha
        simp only [List.nil_append] at hb
        refine ⟨by rw [ha]; exact fun x hx => hx, ?_⟩
        rw [← hb]
        exact List.mem_cons_self _ _
      | cons x a2 =>
        exfalso
        apply hnoMod
        rw [ha]
        simp only [List.cons_append, List.cons.injEq] at hb
        rw [hb.1]
        simp
    · refine ⟨by rw [hc]; exact List.subset_append_left _ _, ?_⟩
      rw [hd]
      simp
  obtain ⟨hsub, hin⟩ := hsplit
  obtain ⟨ou, d, udn, hd, hq2⟩ := hq _ hin
  obtain ⟨o, ho, _, hdo, hne⟩ := buildMap_value ous ou d hd
  have hadd := hsub (add_mem_recreateRequests gs cfg ous o ho hne)
  simp only [modGroupReq, Request.Modify.injEq] at hq2
  refine ⟨[⟨"objectClass", ["group", "top"]⟩, ⟨"groupType", ["-2147483646"]⟩,
    ⟨"sAMAccountName", [descOf o]⟩], ?_⟩
  rw [hq2.1, ← hdo]
  exact hadd

/-- Witness of C10: the `Sales` OU and the user `Jane`; the modify request
comes after the add request for the same DN. -/
theorem C10_modify_targets_created_group_witness :
    (main sampleParseDN [ouSales] [userJane] [] Directory.ok cfg0).log =
      [addGroupReq "Sales Team" cfg0] ++
        Request.Modify "CN=Sales Team,OU=Groups,DC=example,DC=com"
          [⟨ChangeOp.AddAttribute,
            ⟨"member", ["CN=Jane,OU=Sales,OU=Employees,DC=example,DC=com"]⟩⟩] :: [] ∧
    ∃ attrs, Request.Add "CN=Sales Team,OU=Groups,DC=example,DC=com" attrs ∈
      [addGroupReq "Sales Team" cfg0] :=
  ⟨by decide,
    C10_modify_targets_created_group sampleParseDN [ouSales] [userJane] [] Directory.ok cfg0
      [addGroupReq "Sales Team" cfg0] []
      "CN=Sales Team,OU=Groups,DC=example,DC=com"
      [⟨ChangeOp.AddAttribute,
        ⟨"member", ["CN=Jane,OU=Sales,OU=Employees,DC=example,DC=com"]⟩⟩] (by decide)⟩

end AdMailGroups
